import Mathlib

/-!
Shallow embedding of the concache `manual` module (`src/manual/mod.rs`):
a fixed-size hash table of bucket lists with per-handle epoch counters and
a deferred-free (epoch-based reclamation) barrier.

Machine integers are modelled as `Nat`; the `usize` item counter uses
wrapping arithmetic modulo `2 ^ 64` where overflow matters.  Operations that
panic in Rust (`hash % 0` when the table was built with zero buckets) and
loops that can diverge (the reclamation spin under a static registry) are
modelled with `Option`, `none` standing for no normal return.

The bucket list lives in `src/manual/linked_list.rs`, which is not among the
sources; its operations are modelled from the spec (section 4.1) and marked
as such in their doc comments.  Everything else is translated directly from
`src/manual/mod.rs`.
-/

/-- Modelled from the spec: a bucket-list node (`src/manual/linked_list.rs` is
not among the sources).  Fields per spec section 3: immutable key and value, an
active flag that transitions true to false exactly once; `id` models the
node's pointer identity (`*mut Node`) used by the reclamation accumulator. -/
structure Node where
  key : Nat
  value : Nat
  active : Bool
  id : Nat
deriving DecidableEq, Repr

/-- Modelled from the spec: `LinkedList::get` traverses from the head and
returns the value of the first node with matching key and `active = true`. -/
def listGet (k : Nat) (l : List Node) : Option Nat :=
  (l.find? (fun n => n.key == k && n.active)).map (fun n => n.value)

/-- Modelled from the spec: clear the `active` flag of the first active node
with key `k`, leaving the node in place (logical deletion). -/
def deactivateFirst (k : Nat) : List Node → List Node
  | [] => []
  | n :: rest =>
    if n.key == k && n.active then { n with active := false } :: rest
    else n :: deactivateFirst k rest

/-- Modelled from the spec: `LinkedList::insert`.  If an active node with the
key exists, prepend a fresh node, deactivate the old one, push its pointer
into the accumulator and return the old value; otherwise prepend a fresh node
and return `none`. -/
def listInsert (k v newId : Nat) (l : List Node) (acc : List Nat) :
    Option Nat × List Node × List Nat :=
  match l.find? (fun n => n.key == k && n.active) with
  | some old =>
      (some old.value, ⟨k, v, true, newId⟩ :: deactivateFirst k l, acc ++ [old.id])
  | none => (none, ⟨k, v, true, newId⟩ :: l, acc)

/-- Modelled from the spec: `LinkedList::delete`.  Deactivate the first active
node with the key, push its pointer into the accumulator and return its
value; return `none` if no active node with the key exists. -/
def listDelete (k : Nat) (l : List Node) (acc : List Nat) :
    Option Nat × List Node × List Nat :=
  match l.find? (fun n => n.key == k && n.active) with
  | some nd => (some nd.value, deactivateFirst k l, acc ++ [nd.id])
  | none => (none, l, acc)

/-- Modelled from the spec: `DefaultHasher` is external to the repository; the
spec requires only a stable deterministic 64-bit hash folded to `usize`.
A fixed multiplicative mix modulo `2 ^ 64`. -/
def hashKey (k : Nat) : Nat :=
  (k * 2654435761 + 11400714819323198485) % (2 ^ 64)

/-- The `usize` wrap-around modulus (64-bit platform). -/
def USIZE : Nat := 2 ^ 64

/-- `Table` from `src/manual/mod.rs` lines 11-15: bucket count, bucket array,
atomic item counter (modelled as a plain `Nat`, updated with wrapping
`usize` arithmetic). -/
structure Table where
  nbuckets : Nat
  map : List (List Node)
  nitems : Nat
deriving DecidableEq, Repr

/-- `Table::new` (lines 18-30): `nbuckets` empty bucket lists, `nitems = 0`. -/
def Table.new (num_of_buckets : Nat) : Table :=
  { nbuckets := num_of_buckets
    map := List.replicate num_of_buckets []
    nitems := 0 }

/-- The bucket index computed by `Table::insert` (lines 33-36):
`hash(key) % nbuckets`. -/
def Table.insertIndex (t : Table) (key : Nat) : Nat :=
  hashKey key % t.nbuckets

/-- The bucket index computed by `Table::get` (lines 48-51). -/
def Table.getIndex (t : Table) (key : Nat) : Nat :=
  hashKey key % t.nbuckets

/-- The bucket index computed by `Table::delete` (lines 57-60). -/
def Table.deleteIndex (t : Table) (key : Nat) : Nat :=
  hashKey key % t.nbuckets

/-- `Table::insert` (lines 32-45): dispatch to the bucket, then bump `nitems`
when the bucket reports a fresh key (`ret.is_none()`).  `none` models the
`hash % 0` panic when the table has zero buckets. -/
def Table.insert (t : Table) (key value newId : Nat) (remove_nodes : List Nat) :
    Option (Option Nat × Table × List Nat) :=
  if t.nbuckets = 0 then none
  else
    let index := t.insertIndex key
    let r := listInsert key value newId (t.map.getD index []) remove_nodes
    let t2 : Table :=
      { t with
        map := t.map.set index r.2.1
        nitems := if r.1.isNone then (t.nitems + 1) % USIZE else t.nitems }
    some (r.1, t2, r.2.2)

/-- `Table::get` (lines 47-54): dispatch to the bucket; no table state is
touched.  `none` models the `hash % 0` panic. -/
def Table.get (t : Table) (key : Nat) (remove_nodes : List Nat) :
    Option (Option Nat × Table × List Nat) :=
  if t.nbuckets = 0 then none
  else
    let index := t.getIndex key
    some (listGet key (t.map.getD index []), t, remove_nodes)

/-- `Table::delete` (lines 56-69): dispatch to the bucket, then decrement
`nitems` (wrapping `fetch_sub`) when the bucket reports a removal
(`ret.is_some()`).  `none` models the `hash % 0` panic. -/
def Table.delete (t : Table) (key : Nat) (remove_nodes : List Nat) :
    Option (Option Nat × Table × List Nat) :=
  if t.nbuckets = 0 then none
  else
    let index := t.deleteIndex key
    let r := listDelete key (t.map.getD index []) remove_nodes
    let t2 : Table :=
      { t with
        map := t.map.set index r.2.1
        nitems := if r.1.isSome then (t.nitems + (USIZE - 1)) % USIZE else t.nitems }
    some (r.1, t2, r.2.2)

/-- The guard of the reclamation spin loop in `MapHandle::free_nodes`
(line 162): continue while `check <= started[i] && check % 2 == 1`. -/
def spinContinue (check started : Nat) : Bool :=
  decide (check ≤ started) && decide (check % 2 = 1)

/-- `MapHandle::free_nodes` (lines 153-175) under the sequential
interpretation: with no concurrent writers every re-read of a counter
returns its snapshot value, so each per-handle spin loop exits at once or
never; `none` models divergence.  On exit every accumulated pointer is
passed to the physical free (`Box::from_raw`) once, in order; the returned
list is the sequence of freed pointers. -/
def freeNodesSeq (registry : List Nat) (remove_nodes : List Nat) : Option (List Nat) :=
  let started := registry
  if (List.range registry.length).all
      (fun i => !spinContinue (registry.getD i 0) (started.getD i 0)) then
    some remove_nodes
  else none

/-- `Map` from `src/manual/mod.rs` lines 72-75: the table plus the registry of
per-handle epoch counters (the `RwLock<Vec<Arc<AtomicUsize>>>`, modelled as
the list of current counter values).  `nextId` is a modelling device: the
allocator stamp giving each `Box::new`-ed node a distinct pointer identity. -/
structure Map where
  table : Table
  handles : List Nat
  nextId : Nat
deriving DecidableEq, Repr

/-- `Map::with_capacity` (lines 78-93): build the table, create the first
handle with a fresh epoch counter at 0 and push that counter into the
registry.  Returns the map state and the handle's registry index (0). -/
def Map.with_capacity (num_items : Nat) : Map × Nat :=
  ({ table := Table.new num_items, handles := [0], nextId := 0 }, 0)

/-- `MapHandle::clone` (lines 178-190): share the map, create a fresh epoch
counter at 0 and append it to the registry.  Returns the new map state and
the new handle's registry index. -/
def MapHandle.clone (m : Map) : Map × Nat :=
  ({ m with handles := m.handles ++ [0] }, m.handles.length)

/-- Observable events of one handle operation, in program order: each
`fetch_add(1)` on the handle's own epoch counter (recording the new value),
the table interaction (recording the epoch value in force and the
accumulator it produced), and the reclamation barrier (recording the
handle's epoch value in force and the list of freed pointers). -/
inductive Event where
  | epochInc (newVal : Nat)
  | tableOp (epochDuring : Nat) (acc : List Nat)
  | barrier (epochDuring : Nat) (freed : List Nat)
deriving DecidableEq, Repr

/-- Whether an event is a reclamation-barrier execution. -/
def Event.isBarrier : Event → Bool
  | .barrier _ _ => true
  | _ => false

/-- Whether an event is an epoch-counter increment. -/
def Event.isEpochInc : Event → Bool
  | .epochInc _ => true
  | _ => false

/-- The accumulator recorded in a trace's table-interaction event (the list of
pointers the bucket call pushed for deferred reclamation). -/
def traceAcc : List Event → List Nat
  | _ :: Event.tableOp _ a :: _ => a
  | _ => []

/-- `MapHandle::insert` (lines 114-125): fresh local accumulator, entering
epoch increment, table call, exiting epoch increment, then the reclamation
barrier exactly when the accumulator is non-empty.  Returns the Rust return
value, the new shared state and the event trace; `none` propagates a panic
or a diverging barrier spin. -/
def MapHandle.insert (m : Map) (h : Nat) (key value : Nat) :
    Option (Option Nat × Map × List Event) :=
  let c1 := m.handles.getD h 0 + 1
  let m1 : Map := { m with handles := m.handles.set h c1 }
  match Table.insert m1.table key value m1.nextId [] with
  | none => none
  | some (ret, t2, acc) =>
    let c2 := m1.handles.getD h 0 + 1
    let m2 : Map := { m1 with
      table := t2
      nextId := m1.nextId + 1
      handles := m1.handles.set h c2 }
    if acc.isEmpty then
      some (ret, m2, [Event.epochInc c1, Event.tableOp c1 acc, Event.epochInc c2])
    else
      match freeNodesSeq m2.handles acc with
      | none => none
      | some freed =>
        some (ret, m2, [Event.epochInc c1, Event.tableOp c1 acc, Event.epochInc c2,
                        Event.barrier c2 freed])

/-- `MapHandle::get` (lines 127-138): same epoch discipline around the table
call as `insert`. -/
def MapHandle.get (m : Map) (h : Nat) (key : Nat) :
    Option (Option Nat × Map × List Event) :=
  let c1 := m.handles.getD h 0 + 1
  let m1 : Map := { m with handles := m.handles.set h c1 }
  match Table.get m1.table key [] with
  | none => none
  | some (ret, t2, acc) =>
    let c2 := m1.handles.getD h 0 + 1
    let m2 : Map := { m1 with
      table := t2
      handles := m1.handles.set h c2 }
    if acc.isEmpty then
      some (ret, m2, [Event.epochInc c1, Event.tableOp c1 acc, Event.epochInc c2])
    else
      match freeNodesSeq m2.handles acc with
      | none => none
      | some freed =>
        some (ret, m2, [Event.epochInc c1, Event.tableOp c1 acc, Event.epochInc c2,
                        Event.barrier c2 freed])

/-- `MapHandle::delete` (lines 140-151): same epoch discipline around the
table call as `insert`. -/
def MapHandle.delete (m : Map) (h : Nat) (key : Nat) :
    Option (Option Nat × Map × List Event) :=
  let c1 := m.handles.getD h 0 + 1
  let m1 : Map := { m with handles := m.handles.set h c1 }
  match Table.delete m1.table key [] with
  | none => none
  | some (ret, t2, acc) =>
    let c2 := m1.handles.getD h 0 + 1
    let m2 : Map := { m1 with
      table := t2
      handles := m1.handles.set h c2 }
    if acc.isEmpty then
      some (ret, m2, [Event.epochInc c1, Event.tableOp c1 acc, Event.epochInc c2])
    else
      match freeNodesSeq m2.handles acc with
      | none => none
      | some freed =>
        some (ret, m2, [Event.epochInc c1, Event.tableOp c1 acc, Event.epochInc c2,
                        Event.barrier c2 freed])

/-- One of the three public handle operations. -/
inductive Op where
  | ins (k v : Nat)
  | getk (k : Nat)
  | del (k : Nat)
deriving DecidableEq, Repr

/-- Dispatch one handle operation. -/
def handleOp (m : Map) (h : Nat) : Op → Option (Option Nat × Map × List Event)
  | .ins k v => MapHandle.insert m h k v
  | .getk k => MapHandle.get m h k
  | .del k => MapHandle.delete m h k

/-- Run a sequence of operations through one handle, threading the shared
state; `none` if any operation panics or its barrier spin diverges. -/
def runOps (m : Map) (h : Nat) : List Op → Option Map
  | [] => some m
  | op :: rest =>
    match handleOp m h op with
    | none => none
    | some (_, m2, _) => runOps m2 h rest

/-! Helper lemmas about `List.getD`, `List.set` and the spin guard. -/

lemma getD_set_self {α : Type _} (a d : α) :
    ∀ (l : List α) (i : Nat), i < l.length → (l.set i a).getD i d = a
  | [], i, h => by simp at h
  | _ :: _, 0, _ => rfl
  | x :: xs, i + 1, h => by
      simpa using getD_set_self a d xs i (by simpa using h)

lemma getD_set_ne {α : Type _} (a d : α) :
    ∀ (l : List α) (i j : Nat), i ≠ j → (l.set i a).getD j d = l.getD j d
  | [], _, _, _ => by simp
  | x :: xs, 0, 0, hij => absurd rfl hij
  | x :: xs, 0, j + 1, _ => by simp
  | x :: xs, i + 1, 0, _ => by simp
  | x :: xs, i + 1, j + 1, hij => by
      simpa using getD_set_ne a d xs i j (by omega)

lemma getD_mem {α : Type _} (d : α) :
    ∀ (l : List α) (i : Nat), i < l.length → l.getD i d ∈ l
  | [], i, h => by simp at h
  | x :: xs, 0, _ => List.mem_cons_self x xs
  | x :: xs, i + 1, h => by
      simpa using Or.inr (getD_mem d xs i (by simpa using h))

lemma spinContinue_true_iff (check started : Nat) :
    spinContinue check started = true ↔ check ≤ started ∧ check % 2 = 1 := by
  simp [spinContinue]

lemma spinContinue_false_iff (check started : Nat) :
    spinContinue check started = false ↔ started < check ∨ check % 2 = 0 := by
  simp [spinContinue]
  omega

lemma freeNodesSeq_some_of_even (reg acc : List Nat) (h : ∀ c ∈ reg, c % 2 = 0) :
    freeNodesSeq reg acc = some acc := by
  unfold freeNodesSeq
  rw [if_pos]
  rw [List.all_eq_true]
  intro i hi
  rw [List.mem_range] at hi
  have hc := h _ (getD_mem 0 reg i hi)
  simp [spinContinue, List.getD] at hc ⊢
  omega

lemma freeNodesSeq_some_inv {reg acc freed : List Nat}
    (h : freeNodesSeq reg acc = some freed) : freed = acc := by
  simp only [freeNodesSeq] at h
  split at h
  · exact (Option.some_inj.mp h).symm
  · exact absurd h (by simp)

/-! Equation lemmas for the table operations with a positive bucket count. -/

lemma Table.insert_pos (t : Table) (hk : 0 < t.nbuckets) (key value newId : Nat)
    (rn : List Nat) :
    Table.insert t key value newId rn =
      some ((listInsert key value newId (t.map.getD (t.insertIndex key) []) rn).1,
            { t with
              map := t.map.set (t.insertIndex key)
                       (listInsert key value newId (t.map.getD (t.insertIndex key) []) rn).2.1
              nitems :=
                if (listInsert key value newId (t.map.getD (t.insertIndex key) []) rn).1.isNone
                then (t.nitems + 1) % USIZE else t.nitems },
            (listInsert key value newId (t.map.getD (t.insertIndex key) []) rn).2.2) := by
  unfold Table.insert
  rw [if_neg (by omega)]

lemma Table.get_pos (t : Table) (hk : 0 < t.nbuckets) (key : Nat) (rn : List Nat) :
    Table.get t key rn = some (listGet key (t.map.getD (t.getIndex key) []), t, rn) := by
  unfold Table.get
  rw [if_neg (by omega)]

lemma Table.delete_pos (t : Table) (hk : 0 < t.nbuckets) (key : Nat) (rn : List Nat) :
    Table.delete t key rn =
      some ((listDelete key (t.map.getD (t.deleteIndex key) []) rn).1,
            { t with
              map := t.map.set (t.deleteIndex key)
                       (listDelete key (t.map.getD (t.deleteIndex key) []) rn).2.1
              nitems :=
                if (listDelete key (t.map.getD (t.deleteIndex key) []) rn).1.isSome
                then (t.nitems + (USIZE - 1)) % USIZE else t.nitems },
            (listDelete key (t.map.getD (t.deleteIndex key) []) rn).2.2) := by
  unfold Table.delete
  rw [if_neg (by omega)]

lemma Table.insert_some_pos {t : Table} {key value newId : Nat} {rn : List Nat} {out}
    (h : Table.insert t key value newId rn = some out) : 0 < t.nbuckets := by
  unfold Table.insert at h
  split at h
  · exact absurd h (by simp)
  · omega

lemma Table.get_some_pos {t : Table} {key : Nat} {rn : List Nat} {out}
    (h : Table.get t key rn = some out) : 0 < t.nbuckets := by
  unfold Table.get at h
  split at h
  · exact absurd h (by simp)
  · omega

lemma Table.delete_some_pos {t : Table} {key : Nat} {rn : List Nat} {out}
    (h : Table.delete t key rn = some out) : 0 < t.nbuckets := by
  unfold Table.delete at h
  split at h
  · exact absurd h (by simp)
  · omega

/-! Shape lemmas for the three handle operations: the table call they make,
the state they leave and the event trace they produce. -/

lemma MapHandle.insert_spec {m : Map} {h key value : Nat}
    {out : Option Nat × Map × List Event}
    (hh : h < m.handles.length)
    (hout : MapHandle.insert m h key value = some out) :
    ∃ ret t2 acc, Table.insert m.table key value m.nextId [] = some (ret, t2, acc) ∧
      out.1 = ret ∧
      out.2.1 = { table := t2
                  handles := m.handles.set h (m.handles.getD h 0 + 2)
                  nextId := m.nextId + 1 } ∧
      (acc.isEmpty = false →
        freeNodesSeq (m.handles.set h (m.handles.getD h 0 + 2)) acc = some acc) ∧
      out.2.2 = [Event.epochInc (m.handles.getD h 0 + 1),
                 Event.tableOp (m.handles.getD h 0 + 1) acc,
                 Event.epochInc (m.handles.getD h 0 + 2)]
                ++ (if acc.isEmpty then []
                    else [Event.barrier (m.handles.getD h 0 + 2) acc]) := by
  have hset : (m.handles.set h (m.handles.getD h 0 + 1)).getD h 0 = m.handles.getD h 0 + 1 :=
    getD_set_self _ 0 m.handles h (by simpa using hh)
  simp only [MapHandle.insert] at hout
  rw [hset, List.set_set] at hout
  rw [show m.handles.getD h 0 + 1 + 1 = m.handles.getD h 0 + 2 from rfl] at hout
  split at hout
  · exact absurd hout (by simp)
  · rename_i ret t2 acc heq
    refine ⟨ret, t2, acc, heq, ?_⟩
    by_cases hacc : acc.isEmpty
    · rw [if_pos hacc] at hout
      obtain rfl := (Option.some_inj.mp hout)
      refine ⟨rfl, rfl, by simp [hacc], by rw [if_pos hacc]; rfl⟩
    · rw [if_neg hacc] at hout
      rw [Bool.not_eq_true] at hacc
      split at hout
      · exact absurd hout (by simp)
      · rename_i freed hfn
        obtain rfl := freeNodesSeq_some_inv hfn
        obtain rfl := (Option.some_inj.mp hout)
        exact ⟨rfl, rfl, fun _ => hfn, by rw [if_neg (by simp [hacc])]; rfl⟩

lemma MapHandle.get_spec {m : Map} {h key : Nat}
    {out : Option Nat × Map × List Event}
    (hh : h < m.handles.length)
    (hout : MapHandle.get m h key = some out) :
    0 < m.table.nbuckets ∧
    out.1 = listGet key (m.table.map.getD (m.table.getIndex key) []) ∧
    out.2.1 = { table := m.table
                handles := m.handles.set h (m.handles.getD h 0 + 2)
                nextId := m.nextId } ∧
    out.2.2 = [Event.epochInc (m.handles.getD h 0 + 1),
               Event.tableOp (m.handles.getD h 0 + 1) [],
               Event.epochInc (m.handles.getD h 0 + 2)] := by
  have hset : (m.handles.set h (m.handles.getD h 0 + 1)).getD h 0 = m.handles.getD h 0 + 1 :=
    getD_set_self _ 0 m.handles h (by simpa using hh)
  simp only [MapHandle.get] at hout
  rw [hset, List.set_set] at hout
  rw [show m.handles.getD h 0 + 1 + 1 = m.handles.getD h 0 + 2 from rfl] at hout
  split at hout
  · exact absurd hout (by simp)
  · rename_i ret t2 acc heq
    have hpos : 0 < m.table.nbuckets := Table.get_some_pos heq
    rw [Table.get_pos m.table hpos key []] at heq
    obtain ⟨rfl, rfl, rfl⟩ : ret = listGet key (m.table.map.getD (m.table.getIndex key) [])
        ∧ t2 = m.table ∧ acc = [] := by
      have := Option.some_inj.mp heq
      exact ⟨congrArg Prod.fst this.symm, congrArg (fun p => p.2.1) this.symm,
             congrArg (fun p => p.2.2) this.symm⟩
    rw [if_pos (by rfl)] at hout
    obtain rfl := (Option.some_inj.mp hout)
    exact ⟨hpos, rfl, rfl, rfl⟩

lemma MapHandle.delete_spec {m : Map} {h key : Nat}
    {out : Option Nat × Map × List Event}
    (hh : h < m.handles.length)
    (hout : MapHandle.delete m h key = some out) :
    ∃ ret t2 acc, Table.delete m.table key [] = some (ret, t2, acc) ∧
      out.1 = ret ∧
      out.2.1 = { table := t2
                  handles := m.handles.set h (m.handles.getD h 0 + 2)
                  nextId := m.nextId } ∧
      (acc.isEmpty = false →
        freeNodesSeq (m.handles.set h (m.handles.getD h 0 + 2)) acc = some acc) ∧
      out.2.2 = [Event.epochInc (m.handles.getD h 0 + 1),
                 Event.tableOp (m.handles.getD h 0 + 1) acc,
                 Event.epochInc (m.handles.getD h 0 + 2)]
                ++ (if acc.isEmpty then []
                    else [Event.barrier (m.handles.getD h 0 + 2) acc]) := by
  have hset : (m.handles.set h (m.handles.getD h 0 + 1)).getD h 0 = m.handles.getD h 0 + 1 :=
    getD_set_self _ 0 m.handles h (by simpa using hh)
  simp only [MapHandle.delete] at hout
  rw [hset, List.set_set] at hout
  rw [show m.handles.getD h 0 + 1 + 1 = m.handles.getD h 0 + 2 from rfl] at hout
  split at hout
  · exact absurd hout (by simp)
  · rename_i ret t2 acc heq
    refine ⟨ret, t2, acc, heq, ?_⟩
    by_cases hacc : acc.isEmpty
    · rw [if_pos hacc] at hout
      obtain rfl := (Option.some_inj.mp hout)
      refine ⟨rfl, rfl, by simp [hacc], by rw [if_pos hacc]; rfl⟩
    · rw [if_neg hacc] at hout
      rw [Bool.not_eq_true] at hacc
      split at hout
      · exact absurd hout (by simp)
      · rename_i freed hfn
        obtain rfl := freeNodesSeq_some_inv hfn
        obtain rfl := (Option.some_inj.mp hout)
        exact ⟨rfl, rfl, fun _ => hfn, by rw [if_neg (by simp [hacc])]; rfl⟩

/-! Preservation lemmas: bucket count and registry evenness across operations. -/

lemma Table.insert_some_fields {t : Table} {key value newId : Nat} {rn : List Nat}
    {ret : Option Nat} {t2 : Table} {acc : List Nat}
    (h : Table.insert t key value newId rn = some (ret, t2, acc)) :
    t2.nbuckets = t.nbuckets ∧ t2.map.length = t.map.length := by
  have hpos := Table.insert_some_pos h
  rw [Table.insert_pos t hpos key value newId rn] at h
  have h2 := Option.some_inj.mp h
  have ht2 := congrArg (fun p => p.2.1) h2
  simp only at ht2
  rw [← ht2]
  exact ⟨rfl, by simp⟩

lemma Table.delete_some_fields {t : Table} {key : Nat} {rn : List Nat}
    {ret : Option Nat} {t2 : Table} {acc : List Nat}
    (h : Table.delete t key rn = some (ret, t2, acc)) :
    t2.nbuckets = t.nbuckets ∧ t2.map.length = t.map.length := by
  have hpos := Table.delete_some_pos h
  rw [Table.delete_pos t hpos key rn] at h
  have h2 := Option.some_inj.mp h
  have ht2 := congrArg (fun p => p.2.1) h2
  simp only at ht2
  rw [← ht2]
  exact ⟨rfl, by simp⟩

lemma registry_even_after (m : Map) (h : Nat) (hh : h < m.handles.length)
    (hev : ∀ c ∈ m.handles, c % 2 = 0) :
    ∀ c ∈ m.handles.set h (m.handles.getD h 0 + 2), c % 2 = 0 := by
  intro c hc
  rcases List.mem_or_eq_of_mem_set hc with hmem | rfl
  · exact hev c hmem
  · have := hev _ (getD_mem 0 m.handles h hh)
    omega

/-- Under a positive bucket count, a registered handle and an all-even
registry, every operation returns normally. -/
lemma handleOp_isSome (m : Map) (h : Nat) (op : Op)
    (hb : 0 < m.table.nbuckets) (hh : h < m.handles.length)
    (hev : ∀ c ∈ m.handles, c % 2 = 0) :
    (handleOp m h op).isSome = true := by
  have hset : (m.handles.set h (m.handles.getD h 0 + 1)).getD h 0 = m.handles.getD h 0 + 1 :=
    getD_set_self _ 0 m.handles h hh
  have hev2 := registry_even_after m h hh hev
  cases op with
  | ins k v =>
    simp only [handleOp, MapHandle.insert]
    rw [hset, List.set_set,
        show m.handles.getD h 0 + 1 + 1 = m.handles.getD h 0 + 2 from rfl,
        Table.insert_pos m.table hb k v m.nextId []]
    dsimp only
    by_cases hacc : (listInsert k v m.nextId
        (m.table.map.getD (m.table.insertIndex k) []) []).2.2.isEmpty
    · rw [if_pos hacc]; rfl
    · rw [if_neg hacc, freeNodesSeq_some_of_even _ _ hev2]; rfl
  | getk k =>
    simp only [handleOp, MapHandle.get]
    rw [hset, List.set_set,
        show m.handles.getD h 0 + 1 + 1 = m.handles.getD h 0 + 2 from rfl,
        Table.get_pos m.table hb k []]
    rfl
  | del k =>
    simp only [handleOp, MapHandle.delete]
    rw [hset, List.set_set,
        show m.handles.getD h 0 + 1 + 1 = m.handles.getD h 0 + 2 from rfl,
        Table.delete_pos m.table hb k []]
    dsimp only
    by_cases hacc : (listDelete k
        (m.table.map.getD (m.table.deleteIndex k) []) []).2.2.isEmpty
    · rw [if_pos hacc]; rfl
    · rw [if_neg hacc, freeNodesSeq_some_of_even _ _ hev2]; rfl

/-- Consolidated shape of any successful handle operation: the registry is the
old registry with the acting handle's counter advanced by 2, the bucket count
is unchanged, and the event trace is enter-increment, table call,
exit-increment, then a barrier exactly when the accumulator is non-empty. -/
lemma handleOp_spec {m : Map} {h : Nat} {op : Op} {out : Option Nat × Map × List Event}
    (hh : h < m.handles.length)
    (hout : handleOp m h op = some out) :
    ∃ acc, out.2.1.handles = m.handles.set h (m.handles.getD h 0 + 2) ∧
      out.2.1.table.nbuckets = m.table.nbuckets ∧
      out.2.2 = [Event.epochInc (m.handles.getD h 0 + 1),
                 Event.tableOp (m.handles.getD h 0 + 1) acc,
                 Event.epochInc (m.handles.getD h 0 + 2)]
                ++ (if acc.isEmpty then []
                    else [Event.barrier (m.handles.getD h 0 + 2) acc]) := by
  cases op with
  | ins k v =>
    obtain ⟨ret, t2, acc, heq, _, hst, _, hev⟩ := MapHandle.insert_spec hh hout
    refine ⟨acc, ?_, ?_, hev⟩
    · rw [hst]
    · rw [hst]
      exact (Table.insert_some_fields heq).1
  | getk k =>
    obtain ⟨_, _, hst, hev⟩ := MapHandle.get_spec hh hout
    exact ⟨[], by rw [hst], by rw [hst], by rw [hev]; rfl⟩
  | del k =>
    obtain ⟨ret, t2, acc, heq, _, hst, _, hev⟩ := MapHandle.delete_spec hh hout
    refine ⟨acc, ?_, ?_, hev⟩
    · rw [hst]
    · rw [hst]
      exact (Table.delete_some_fields heq).1

/-- Running a sequence of operations through one registered handle of an
all-even registry succeeds and advances that handle's epoch counter by
exactly 2 per operation, preserving the registry size, its evenness and the
bucket count. -/
lemma runOps_spec :
    ∀ (ops : List Op) (m : Map) (h : Nat),
      0 < m.table.nbuckets → h < m.handles.length → (∀ c ∈ m.handles, c % 2 = 0) →
      ∃ m2, runOps m h ops = some m2 ∧
        m2.handles.getD h 0 = m.handles.getD h 0 + 2 * ops.length ∧
        m2.handles.length = m.handles.length ∧
        m2.table.nbuckets = m.table.nbuckets ∧
        (∀ c ∈ m2.handles, c % 2 = 0)
  | [], m, h, _, _, hev => ⟨m, rfl, by simp, rfl, rfl, hev⟩
  | op :: rest, m, h, hb, hh, hev => by
    obtain ⟨out, hout⟩ := Option.isSome_iff_exists.mp (handleOp_isSome m h op hb hh hev)
    obtain ⟨acc, hreg, hnb, _⟩ := handleOp_spec hh hout
    have hh2 : h < out.2.1.handles.length := by rw [hreg]; simpa using hh
    have hev2 : ∀ c ∈ out.2.1.handles, c % 2 = 0 := by
      rw [hreg]; exact registry_even_after m h hh hev
    have hb2 : 0 < out.2.1.table.nbuckets := by rw [hnb]; exact hb
    obtain ⟨m2, hrun, hcnt, hlen, hnb2, hev3⟩ := runOps_spec rest out.2.1 h hb2 hh2 hev2
    refine ⟨m2, ?_, ?_, ?_, ?_, hev3⟩
    · simp only [runOps, hout]
      exact hrun
    · rw [hcnt, hreg, getD_set_self _ 0 m.handles h hh]
      simp [Nat.mul_add, Nat.mul_succ]
      omega
    · rw [hlen, hreg]
      simp
    · rw [hnb2, hnb]

/-! Further list and bucket-call lemmas used by the claim theorems. -/

lemma getD_append_left {α : Type _} (d : α) :
    ∀ (l l2 : List α) (i : Nat), i < l.length → (l ++ l2).getD i d = l.getD i d
  | [], _, i, h => by simp at h
  | x :: xs, l2, 0, _ => rfl
  | x :: xs, l2, i + 1, h => getD_append_left d xs l2 i (by simpa using h)

lemma getD_append_len {α : Type _} (d a : α) :
    ∀ (l : List α), (l ++ [a]).getD l.length d = a
  | [] => rfl
  | _ :: xs => getD_append_len d a xs

lemma listInsert_acc_len (k v newId : Nat) (l : List Node) :
    (listInsert k v newId l []).2.2.length ≤ 1 := by
  unfold listInsert
  split <;> simp

lemma listDelete_acc_len (k : Nat) (l : List Node) :
    (listDelete k l []).2.2.length ≤ 1 := by
  unfold listDelete
  split <;> simp

lemma listGet_listInsert (k v newId : Nat) (l : List Node) (acc : List Nat) :
    listGet k (listInsert k v newId l acc).2.1 = some v := by
  unfold listInsert
  split <;> simp [listGet, List.find?_cons]

lemma Table.insert_acc {t : Table} {key value newId : Nat} {rn : List Nat}
    {ret : Option Nat} {t2 : Table} {acc : List Nat}
    (h : Table.insert t key value newId rn = some (ret, t2, acc)) :
    acc = (listInsert key value newId (t.map.getD (t.insertIndex key) []) rn).2.2 := by
  have hpos := Table.insert_some_pos h
  rw [Table.insert_pos t hpos key value newId rn] at h
  exact (congrArg (fun p => p.2.2) (Option.some_inj.mp h)).symm

lemma Table.delete_acc {t : Table} {key : Nat} {rn : List Nat}
    {ret : Option Nat} {t2 : Table} {acc : List Nat}
    (h : Table.delete t key rn = some (ret, t2, acc)) :
    acc = (listDelete key (t.map.getD (t.deleteIndex key) []) rn).2.2 := by
  have hpos := Table.delete_some_pos h
  rw [Table.delete_pos t hpos key rn] at h
  exact (congrArg (fun p => p.2.2) (Option.some_inj.mp h)).symm

lemma Table.get_after_insert {t : Table} {k v newId : Nat}
    {ret : Option Nat} {t2 : Table} {acc : List Nat}
    (hwf : t.map.length = t.nbuckets)
    (hins : Table.insert t k v newId [] = some (ret, t2, acc)) :
    ∀ rn, Table.get t2 k rn = some (some v, t2, rn) := by
  intro rn
  have hpos := Table.insert_some_pos hins
  rw [Table.insert_pos t hpos k v newId []] at hins
  have ht2 := congrArg (fun p => p.2.1) (Option.some_inj.mp hins)
  simp only at ht2
  have hnb : t2.nbuckets = t.nbuckets := by rw [← ht2]
  have hidx : t2.getIndex k = t.insertIndex k := by
    unfold Table.getIndex Table.insertIndex
    rw [hnb]
  rw [Table.get_pos t2 (by omega) k rn, hidx]
  have hlt : t.insertIndex k < t.map.length := by
    rw [hwf]
    exact Nat.mod_lt _ hpos
  have hbucket : t2.map.getD (t.insertIndex k) [] =
      (listInsert k v newId (t.map.getD (t.insertIndex k) []) []).2.1 := by
    rw [← ht2]
    exact getD_set_self _ [] t.map (t.insertIndex k) hlt
  rw [hbucket, listGet_listInsert]

/-- Claim C1: in the reclamation barrier, the per-handle wait loop continues
exactly while the re-read counter value `check` satisfies
`check <= started[i]` and `check` is odd, and therefore exits exactly when
`check > started[i]` or `check` is even; in particular a peer whose snapshot
value was even (its monotone counter re-reads at least the snapshot) is never
waited on. -/
theorem spin_guard_exact (check started : Nat) :
    (spinContinue check started = true ↔ check ≤ started ∧ check % 2 = 1) ∧
    (spinContinue check started = false ↔ started < check ∨ check % 2 = 0) ∧
    (started ≤ check → started % 2 = 0 → spinContinue check started = false) := by
  refine ⟨spinContinue_true_iff check started, spinContinue_false_iff check started, ?_⟩
  intro hle hev
  rw [spinContinue_false_iff]
  omega

/-- Witness for C1 at `check = 3`, `started = 2`: an even snapshot is not
waited on. -/
theorem spin_guard_exact_witness : spinContinue 3 2 = false :=
  (spin_guard_exact 3 2).2.2 (by decide) (by decide)

/-- Claim C5: `Table::insert` increments `nitems` by exactly one (wrapping
`usize` arithmetic) when the bucket insert returns `none` and leaves it
unchanged otherwise; `Table::delete` decrements `nitems` by exactly one when
the bucket delete returns `some` and leaves it unchanged otherwise; both
return the bucket's result unchanged, and both return normally on a table
with a positive bucket count. -/
theorem nitems_tracks_bucket_result (t : Table) (key value newId : Nat)
    (rn : List Nat) (hb : 0 < t.nbuckets) :
    (∀ out, Table.insert t key value newId rn = some out →
      out.1 = (listInsert key value newId (t.map.getD (t.insertIndex key) []) rn).1 ∧
      out.2.2 = (listInsert key value newId (t.map.getD (t.insertIndex key) []) rn).2.2 ∧
      out.2.1.nitems = (if out.1.isNone then (t.nitems + 1) % USIZE else t.nitems) ∧
      (out.1 = none → t.nitems + 1 < USIZE → out.2.1.nitems = t.nitems + 1) ∧
      (out.1.isSome = true → out.2.1.nitems = t.nitems)) ∧
    (∀ out, Table.delete t key rn = some out →
      out.1 = (listDelete key (t.map.getD (t.deleteIndex key) []) rn).1 ∧
      out.2.2 = (listDelete key (t.map.getD (t.deleteIndex key) []) rn).2.2 ∧
      out.2.1.nitems = (if out.1.isSome then (t.nitems + (USIZE - 1)) % USIZE else t.nitems) ∧
      (out.1.isSome = true → 0 < t.nitems → t.nitems < USIZE →
        out.2.1.nitems = t.nitems - 1) ∧
      (out.1 = none → out.2.1.nitems = t.nitems)) ∧
    (Table.insert t key value newId rn).isSome = true ∧
    (Table.delete t key rn).isSome = true := by
  have hU : USIZE = 18446744073709551616 := by unfold USIZE; norm_num
  refine ⟨?_, ?_, ?_, ?_⟩
  · intro out hout
    rw [Table.insert_pos t hb key value newId rn] at hout
    obtain rfl := Option.some_inj.mp hout
    rcases hr : (listInsert key value newId (t.map.getD (t.insertIndex key) []) rn).1
      with _ | v
    · refine ⟨hr.symm ▸ rfl, rfl, by simp [hr], ?_, by simp [hr]⟩
      intro _ hlt
      simp only [hr, Option.isNone_none, if_true]
      rw [hU] at hlt ⊢
      omega
    · refine ⟨hr.symm ▸ rfl, rfl, by simp [hr], by simp [hr], ?_⟩
      intro _
      simp [hr]
  · intro out hout
    rw [Table.delete_pos t hb key rn] at hout
    obtain rfl := Option.some_inj.mp hout
    rcases hr : (listDelete key (t.map.getD (t.deleteIndex key) []) rn).1 with _ | v
    · exact ⟨hr.symm ▸ rfl, rfl, by simp [hr], by simp [hr], by simp [hr]⟩
    · refine ⟨hr.symm ▸ rfl, rfl, by simp [hr], ?_, by simp [hr]⟩
      intro _ hpos hlt
      simp only [hr, Option.isSome_some, if_true]
      rw [hU] at hlt ⊢
      omega
  · rw [Table.insert_pos t hb key value newId rn]; rfl
  · rw [Table.delete_pos t hb key rn]; rfl

/-- Witness for C5: on a fresh one-bucket table, inserting key 5 returns the
bucket's `none` and sets `nitems` to 1. -/
theorem nitems_tracks_bucket_result_witness :
    ((none : Option Nat), (⟨1, [[⟨5, 7, true, 0⟩]], 1⟩ : Table),
      ([] : List Nat)).2.1.nitems = (Table.new 1).nitems + 1 :=
  ((nitems_tracks_bucket_result (Table.new 1) 5 7 0 [] (by decide)).1
    (none, ⟨1, [[⟨5, 7, true, 0⟩]], 1⟩, []) (by decide)).2.2.2.1 (by decide) (by decide)

/-- Claim C9: bucket dispatch is deterministic: insert, get and delete all
compute the same `hash(key) mod nbuckets` index (for any two tables with the
same bucket count, hence across the life of one table), and each operation
touches only the bucket at its index. -/
theorem bucket_dispatch_deterministic :
    (∀ (t u : Table) (key : Nat), t.nbuckets = u.nbuckets →
      t.insertIndex key = u.getIndex key ∧ t.getIndex key = u.deleteIndex key) ∧
    (∀ (t : Table) (key value newId : Nat) (rn : List Nat) out,
      Table.insert t key value newId rn = some out →
      ∀ j, j ≠ t.insertIndex key → out.2.1.map.getD j [] = t.map.getD j []) ∧
    (∀ (t : Table) (key : Nat) (rn : List Nat) out,
      Table.get t key rn = some out →
      out.1 = listGet key (t.map.getD (t.getIndex key) []) ∧ out.2.1 = t) ∧
    (∀ (t : Table) (key : Nat) (rn : List Nat) out,
      Table.delete t key rn = some out →
      ∀ j, j ≠ t.deleteIndex key → out.2.1.map.getD j [] = t.map.getD j []) := by
  refine ⟨?_, ?_, ?_, ?_⟩
  · intro t u key hnb
    unfold Table.insertIndex Table.getIndex Table.deleteIndex
    rw [hnb]
    exact ⟨rfl, rfl⟩
  · intro t key value newId rn out hout j hj
    rw [Table.insert_pos t (Table.insert_some_pos hout) key value newId rn] at hout
    obtain rfl := Option.some_inj.mp hout
    exact getD_set_ne _ [] t.map _ j (Ne.symm hj)
  · intro t key rn out hout
    rw [Table.get_pos t (Table.get_some_pos hout) key rn] at hout
    obtain rfl := Option.some_inj.mp hout
    exact ⟨rfl, rfl⟩
  · intro t key rn out hout j hj
    rw [Table.delete_pos t (Table.delete_some_pos hout) key rn] at hout
    obtain rfl := Option.some_inj.mp hout
    exact getD_set_ne _ [] t.map _ j (Ne.symm hj)

/-- Witness for C9: two tables with the same bucket count route key 1 through
the same index in insert and get. -/
theorem bucket_dispatch_deterministic_witness :
    (Table.new 8).insertIndex 1 = (⟨8, [], 5⟩ : Table).getIndex 1 :=
  (bucket_dispatch_deterministic.1 (Table.new 8) ⟨8, [], 5⟩ 1 (by decide)).1

/-- Claim C10: a get leaves the table (in particular `nitems`) unchanged,
neither adds to nor removes from the handle registry and leaves every other
handle's counter untouched; at table level, `Table::get` returns the table
and the reclamation accumulator it was handed unchanged. -/
theorem get_frame (m : Map) (h key : Nat) (out : Option Nat × Map × List Event)
    (hh : h < m.handles.length) (hout : MapHandle.get m h key = some out) :
    out.2.1.table = m.table ∧
    out.2.1.table.nitems = m.table.nitems ∧
    out.2.1.handles.length = m.handles.length ∧
    (∀ i, i ≠ h → out.2.1.handles.getD i 0 = m.handles.getD i 0) ∧
    out.2.1.nextId = m.nextId ∧
    (∀ (t : Table) (k2 : Nat) (rn : List Nat) o, Table.get t k2 rn = some o →
      o.2.1 = t ∧ o.2.2 = rn) := by
  obtain ⟨hpos, hret, hst, hev⟩ := MapHandle.get_spec hh hout
  refine ⟨by rw [hst], by rw [hst], by rw [hst]; simp, ?_, by rw [hst], ?_⟩
  · intro i hi
    rw [hst]
    exact getD_set_ne _ 0 m.handles h i (Ne.symm hi)
  · intro t k2 rn o ho
    rw [Table.get_pos t (Table.get_some_pos ho) k2 rn] at ho
    obtain rfl := Option.some_inj.mp ho
    exact ⟨rfl, rfl⟩

/-- Witness for C10: a concrete get on a fresh one-bucket map leaves the
table unchanged. -/
theorem get_frame_witness :
    ((none : Option Nat), ({ table := ⟨1, [[]], 0⟩, handles := [2], nextId := 0 } : Map),
      [Event.epochInc 1, Event.tableOp 1 [], Event.epochInc 2]).2.1.table
      = (Map.with_capacity 1).1.table :=
  (get_frame (Map.with_capacity 1).1 0 5
    (none, { table := ⟨1, [[]], 0⟩, handles := [2], nextId := 0 },
      [Event.epochInc 1, Event.tableOp 1 [], Event.epochInc 2])
    (by decide) (by decide)).1

lemma barrier_mem_events {c0 c : Nat} {acc fr : List Nat}
    (hmem : Event.barrier c fr ∈
      [Event.epochInc (c0 + 1), Event.tableOp (c0 + 1) acc, Event.epochInc (c0 + 2)]
      ++ (if acc.isEmpty then [] else [Event.barrier (c0 + 2) acc])) :
    c = c0 + 2 ∧ fr = acc ∧ acc ≠ [] := by
  rcases acc with _ | ⟨a, as⟩
  · simp at hmem
  · simp at hmem
    exact ⟨hmem.1, hmem.2, by simp⟩

lemma nodup_of_length_le_one {α : Type _} : ∀ (l : List α), l.length ≤ 1 → l.Nodup
  | [], _ => List.nodup_nil
  | [a], _ => List.nodup_singleton a
  | _ :: _ :: _, h => by simp at h

/-- Claim C2: for every handle operation, the reclamation barrier runs if and
only if the operation's local accumulator is non-empty; when it runs it is
the last event, strictly after the second (exit) epoch increment, and the
acting handle's registry entry during the barrier is the entry value plus 2
(even whenever the handle entered with an even counter). -/
theorem barrier_iff_acc_nonempty (m : Map) (h : Nat) (op : Op)
    (out : Option Nat × Map × List Event)
    (hh : h < m.handles.length) (hout : handleOp m h op = some out) :
    ((out.2.2.any Event.isBarrier = true) ↔ traceAcc out.2.2 ≠ []) ∧
    out.2.2 = [Event.epochInc (m.handles.getD h 0 + 1),
               Event.tableOp (m.handles.getD h 0 + 1) (traceAcc out.2.2),
               Event.epochInc (m.handles.getD h 0 + 2)]
              ++ (if (traceAcc out.2.2).isEmpty then []
                  else [Event.barrier (m.handles.getD h 0 + 2) (traceAcc out.2.2)]) ∧
    (∀ c fr, Event.barrier c fr ∈ out.2.2 →
      c = m.handles.getD h 0 + 2 ∧ (m.handles.getD h 0 % 2 = 0 → c % 2 = 0)) ∧
    out.2.1.handles.getD h 0 = m.handles.getD h 0 + 2 := by
  obtain ⟨acc, hreg, hnb, hev⟩ := handleOp_spec hh hout
  have hacc : traceAcc out.2.2 = acc := by rw [hev]; rfl
  rw [hacc]
  refine ⟨?_, hev, ?_, by rw [hreg]; exact getD_set_self _ 0 m.handles h hh⟩
  · rw [hev]
    rcases acc with _ | ⟨a, as⟩
    · simp [Event.isBarrier]
    · simp [Event.isBarrier]
  · intro c fr hmem
    rw [hev] at hmem
    obtain ⟨hc, -, -⟩ := barrier_mem_events hmem
    exact ⟨hc, fun he => by omega⟩

/-- Witness for C2: a concrete delete that unlinks a node runs the barrier
with the handle's counter advanced to 2. -/
theorem barrier_iff_acc_nonempty_witness :
    ([Event.epochInc 1, Event.tableOp 1 [7], Event.epochInc 2,
      Event.barrier 2 [7]].any Event.isBarrier = true) ↔
      traceAcc [Event.epochInc 1, Event.tableOp 1 [7], Event.epochInc 2,
        Event.barrier 2 [7]] ≠ [] :=
  (barrier_iff_acc_nonempty
    { table := ⟨1, [[⟨5, 9, true, 7⟩]], 1⟩, handles := [0], nextId := 8 } 0 (Op.del 5)
    (some 9,
      { table := ⟨1, [[⟨5, 9, false, 7⟩]], 0⟩, handles := [2], nextId := 8 },
      [Event.epochInc 1, Event.tableOp 1 [7], Event.epochInc 2, Event.barrier 2 [7]])
    (by decide) (by decide)).1

/-- Claim C4: every handle operation performs exactly one epoch increment
before the table call and exactly one after (the trace holds exactly two
increments bracketing the table interaction), the counter is odd during the
table interaction whenever the operation began on an even counter, each
operation advances the counter by exactly 2, and a fresh handle that
completes K operations ends with epoch counter 2*K. -/
theorem epoch_discipline :
    (∀ (m : Map) (h : Nat) (op : Op) (out : Option Nat × Map × List Event),
      h < m.handles.length → handleOp m h op = some out →
      out.2.2 = [Event.epochInc (m.handles.getD h 0 + 1),
                 Event.tableOp (m.handles.getD h 0 + 1) (traceAcc out.2.2),
                 Event.epochInc (m.handles.getD h 0 + 2)]
                ++ (if (traceAcc out.2.2).isEmpty then []
                    else [Event.barrier (m.handles.getD h 0 + 2) (traceAcc out.2.2)]) ∧
      (out.2.2.filter Event.isEpochInc).length = 2 ∧
      (m.handles.getD h 0 % 2 = 0 →
        (m.handles.getD h 0 + 1) % 2 = 1 ∧ (m.handles.getD h 0 + 2) % 2 = 0) ∧
      out.2.1.handles.getD h 0 = m.handles.getD h 0 + 2) ∧
    (∀ (n : Nat) (ops : List Op), 0 < n →
      (runOps (Map.with_capacity n).1 0 ops).map (fun m2 => m2.handles.getD 0 0)
        = some (2 * ops.length)) := by
  constructor
  · intro m h op out hh hout
    obtain ⟨acc, hreg, hnb, hev⟩ := handleOp_spec hh hout
    have hacc : traceAcc out.2.2 = acc := by rw [hev]; rfl
    rw [hacc]
    refine ⟨hev, ?_, fun he => ⟨by omega, by omega⟩,
            by rw [hreg]; exact getD_set_self _ 0 m.handles h hh⟩
    rw [hev]
    rcases acc with _ | ⟨a, as⟩
    · rfl
    · rfl
  · intro n ops hn
    obtain ⟨m2, hr, hcnt, -, -, -⟩ :=
      runOps_spec ops (Map.with_capacity n).1 0 hn Nat.zero_lt_one
        (fun c hc => by rcases List.mem_singleton.mp hc; rfl)
    rw [hr]
    show some (m2.handles.getD 0 0) = some (2 * ops.length)
    rw [hcnt]
    refine congrArg some ?_
    simp [Map.with_capacity]

/-- Witness for C4: two operations through the fresh handle of a one-bucket
map leave its epoch counter at 4. -/
theorem epoch_discipline_witness :
    (runOps (Map.with_capacity 1).1 0 [Op.ins 1 1, Op.getk 1]).map
      (fun m2 => m2.handles.getD 0 0) = some (2 * [Op.ins 1 1, Op.getk 1].length) :=
  epoch_discipline.2 1 [Op.ins 1 1, Op.getk 1] (by decide)

/-- Claim C7: within one reclamation-barrier invocation every pointer in the
accumulator is passed to the physical free exactly as many times as it occurs
there, and the accumulator a single operation hands to its barrier is that
operation's fresh local list: it holds at most one pointer and contains no
duplicates, so each collected node is freed at most once. -/
theorem freed_exactly_once :
    (∀ (reg acc freed : List Nat), freeNodesSeq reg acc = some freed →
      ∀ p, freed.count p = acc.count p) ∧
    (∀ (m : Map) (h : Nat) (op : Op) (out : Option Nat × Map × List Event)
      (c : Nat) (fr : List Nat),
      h < m.handles.length → handleOp m h op = some out →
      Event.barrier c fr ∈ out.2.2 →
      fr = traceAcc out.2.2 ∧ fr.length ≤ 1 ∧ fr.Nodup) := by
  constructor
  · intro reg acc freed hf p
    rw [freeNodesSeq_some_inv hf]
  · intro m h op out c fr hh hout hmem
    obtain ⟨acc, hreg, hnb, hev⟩ := handleOp_spec hh hout
    have hacc : traceAcc out.2.2 = acc := by rw [hev]; rfl
    rw [hev] at hmem
    obtain ⟨-, hfr, -⟩ := barrier_mem_events hmem
    have hlen : acc.length ≤ 1 := by
      cases op with
      | ins k v =>
        obtain ⟨ret, t2, acc2, heq, -, -, -, hev2⟩ := MapHandle.insert_spec hh hout
        have : acc2 = acc := by
          have h1 : traceAcc out.2.2 = acc2 := by rw [hev2]; rfl
          rw [← h1, hacc]
        rw [← this, Table.insert_acc heq]
        exact listInsert_acc_len k v m.nextId _
      | getk k =>
        obtain ⟨-, -, -, hev2⟩ := MapHandle.get_spec hh hout
        have h1 : traceAcc out.2.2 = [] := by rw [hev2]; rfl
        rw [← hacc, h1]
        simp
      | del k =>
        obtain ⟨ret, t2, acc2, heq, -, -, -, hev2⟩ := MapHandle.delete_spec hh hout
        have : acc2 = acc := by
          have h1 : traceAcc out.2.2 = acc2 := by rw [hev2]; rfl
          rw [← h1, hacc]
        rw [← this, Table.delete_acc heq]
        exact listDelete_acc_len k _
    rw [hfr, hacc]
    exact ⟨rfl, hlen, nodup_of_length_le_one acc hlen⟩

/-- Witness for C7: a barrier over an all-even registry frees the pointer 5
exactly once, and the barrier of a concrete unlinking delete carries a
duplicate-free singleton accumulator. -/
theorem freed_exactly_once_witness :
    (List.count 5 [5, 7] = List.count 5 [5, 7]) ∧
    (([7] : List Nat) = traceAcc [Event.epochInc 1, Event.tableOp 1 [7],
        Event.epochInc 2, Event.barrier 2 [7]]) :=
  ⟨freed_exactly_once.1 [0, 2] [5, 7] [5, 7] (by decide) 5,
   (freed_exactly_once.2
     { table := ⟨1, [[⟨5, 9, true, 7⟩]], 1⟩, handles := [0], nextId := 8 } 0 (Op.del 5)
     (some 9,
       { table := ⟨1, [[⟨5, 9, false, 7⟩]], 0⟩, handles := [2], nextId := 8 },
       [Event.epochInc 1, Event.tableOp 1 [7], Event.epochInc 2, Event.barrier 2 [7]])
     2 [7] (by decide) (by decide) (by decide)).1⟩

/-- Claim C8: cloning a handle appends exactly one fresh epoch counter,
initialized to 0, to the shared registry, modifying no existing entry and
sharing the same table; an insert through any handle of the shared map is
observable through a get on any other handle. -/
theorem clone_shares_map_fresh_counter (m : Map) :
    (MapHandle.clone m).1.handles = m.handles ++ [0] ∧
    (MapHandle.clone m).2 = m.handles.length ∧
    (MapHandle.clone m).1.handles.getD (MapHandle.clone m).2 0 = 0 ∧
    (MapHandle.clone m).1.handles.length = m.handles.length + 1 ∧
    (∀ i, i < m.handles.length →
      (MapHandle.clone m).1.handles.getD i 0 = m.handles.getD i 0) ∧
    (MapHandle.clone m).1.table = m.table ∧
    (∀ (h1 h2 k v : Nat) (out : Option Nat × Map × List Event),
      m.table.map.length = m.table.nbuckets →
      h1 < (MapHandle.clone m).1.handles.length →
      MapHandle.insert (MapHandle.clone m).1 h1 k v = some out →
      (MapHandle.get out.2.1 h2 k).map (fun o => o.1) = some (some v)) := by
  refine ⟨rfl, rfl, getD_append_len 0 0 m.handles, by simp [MapHandle.clone], ?_, rfl, ?_⟩
  · intro i hi
    exact getD_append_left 0 m.handles [0] i hi
  · intro h1 h2 k v out hwf hh1 hout
    obtain ⟨ret, t2, acc, heq, hret, hst, hfn, hev⟩ := MapHandle.insert_spec hh1 hout
    have hget := Table.get_after_insert hwf heq
    have htab : out.2.1.table = t2 := by rw [hst]
    simp only [MapHandle.get]
    rw [htab, hget []]
    rfl

/-- Witness for C8 at the S4 scenario scaled to one bucket: cloning the
initial handle yields a counter at 0, and a get through the clone observes an
insert through the original handle. -/
theorem clone_shares_map_fresh_counter_witness :
    (MapHandle.clone (Map.with_capacity 1).1).1.handles.getD
      (MapHandle.clone (Map.with_capacity 1).1).2 0 = 0 ∧
    (MapHandle.get ((none : Option Nat),
        ({ table := ⟨1, [[⟨1, 3, true, 0⟩]], 1⟩, handles := [2, 0], nextId := 1 } : Map),
        [Event.epochInc 1, Event.tableOp 1 [], Event.epochInc 2]).2.1 1 1).map
      (fun o => o.1) = some (some 3) :=
  ⟨(clone_shares_map_fresh_counter (Map.with_capacity 1).1).2.2.1,
   (clone_shares_map_fresh_counter (Map.with_capacity 1).1).2.2.2.2.2.2 0 1 1 3
     (none, { table := ⟨1, [[⟨1, 3, true, 0⟩]], 1⟩, handles := [2, 0], nextId := 1 },
       [Event.epochInc 1, Event.tableOp 1 [], Event.epochInc 2])
     (by decide) (by decide) (by decide)⟩

/-- Claim C6, counterexample: constructing the map with zero buckets is not
fatal at construction: `with_capacity 0` returns a normal handle over a
zero-bucket table with its counter registered, and it is the first operation
(here an insert) that fails. -/
theorem with_capacity_zero_constructs :
    (Map.with_capacity 0).1 =
      { table := { nbuckets := 0, map := [], nitems := 0 }, handles := [0], nextId := 0 } ∧
    MapHandle.insert (Map.with_capacity 0).1 0 5 7 = none :=
  ⟨rfl, rfl⟩

/-- Claim C6, amended: `with_capacity 0` itself completes normally and returns
a handle (no recoverable error value is produced at construction); the fatal
failure is deferred to the first map operation: every insert, get or delete
on the resulting handle panics with a remainder-by-zero on the bucket
index. -/
theorem zero_buckets_fatal_at_first_op (k v : Nat) :
    (Map.with_capacity 0).1.handles = [0] ∧
    (Map.with_capacity 0).1.table.nbuckets = 0 ∧
    MapHandle.insert (Map.with_capacity 0).1 0 k v = none ∧
    MapHandle.get (Map.with_capacity 0).1 0 k = none ∧
    MapHandle.delete (Map.with_capacity 0).1 0 k = none :=
  ⟨rfl, rfl, rfl, rfl, rfl⟩
